import Mathlib

/-!
# Verification of the `env` platform-abstraction layer of leveldb-rs

Shallow embedding of `src/env.rs`: the thread-shared `RandomAccessFile`
with its serialized seek-then-read `read_at`, the best-effort `Logger`,
and the `Env` capability trait.  Bytes are `Nat`, an open `Read + Seek`
resource is a `FileState` (content plus cursor position), and the unified
error type of the external `error` module is modelled from the spec.
-/

/-- Modelled from the spec: the unified failure kind of the external
`error` module (`error::Status`, not part of the sources here).  The spec
requires at least an I/O-failure kind, a synchronization-poisoning kind,
and an already-locked kind. -/
inductive Status where
  | ioError
  | lockError
  | alreadyLocked
  deriving DecidableEq, Repr

/-- Outcome of a fallible operation in the embedding: a normal value, a
typed error of the unified kind, or abnormal termination of the calling
thread.  The translation maps early return via `try!` to `err`; any
unwrap/abort site in the source would be mapped to `panicked`. -/
inductive Outcome (α : Type) where
  | ok (val : α)
  | err (e : Status)
  | panicked
  deriving DecidableEq, Repr

/-- An open `Read + Seek` resource (file or cursor): its byte content
and the current read position. -/
structure FileState where
  content : List Nat
  pos : Nat
  deriving DecidableEq, Repr

namespace FileState

/-- `Seek::seek(SeekFrom::Start(off))` on a file/cursor: set the read
position to the absolute offset `off`.  Seeking beyond the end succeeds;
for this resource the operation has no failure case. -/
def seek (fs : FileState) (off : Nat) : FileState :=
  { fs with pos := off }

/-- A single `Read::read` of at most `k` bytes: returns the bytes
actually available from the current position (possibly fewer than `k`)
and advances the position past them. -/
def readBytes (fs : FileState) (k : Nat) : List Nat × FileState :=
  let out := (fs.content.drop fs.pos).take k
  (out, { fs with pos := fs.pos + out.length })

/-- `Read::read_exact` into a buffer of length `len`: reads until the
buffer is full or the resource is exhausted; succeeds exactly when `len`
bytes were available, otherwise fails with `UnexpectedEof` (the raw
`io::Error` is modelled as `Unit`).  The position advances past the
consumed bytes either way. -/
def read_exact (fs : FileState) (len : Nat) : Except Unit (List Nat) × FileState :=
  let r := fs.readBytes len
  (if r.1.length = len then .ok r.1 else .error (), r.2)

end FileState

/-- Modelled from the spec: `error::from_io_result` converts an I/O-level
result into the unified error type, tagging failures with the I/O kind. -/
def from_io_result {α : Type} : Except Unit α → Outcome α
  | .ok a => .ok a
  | .error _ => .err .ioError

/-- Modelled from the spec: `error::from_lock_result` converts the result
of acquiring the exclusion primitive into the unified error type; a
poisoned primitive (a prior holder terminated abnormally while holding
it) becomes a typed synchronization error, not a crash. -/
def from_lock_result {α : Type} : Except Unit α → Outcome α
  | .ok a => .ok a
  | .error _ => .err .lockError

/-- `Mutex::lock` on the shared handle: yields the guarded resource, or a
poison error when a prior holder terminated abnormally while holding the
mutex (`poisoned = true`). -/
def lockFile (poisoned : Bool) (fs : FileState) : Except Unit FileState :=
  if poisoned then .error () else .ok fs

namespace RandomAccessFile

/-- `RandomAccessFile::read_at(off, len)`: acquire the mutex (early
return with a typed error if poisoned), seek to the absolute offset
`off` (infallible for this resource), allocate a buffer of `len` zeroes
and fill it with `read_exact`, converting an I/O failure to the unified
error type.  Returns the buffer on success, paired with the state the
shared resource is left in. -/
def read_at (poisoned : Bool) (fs : FileState) (off len : Nat) :
    Outcome (List Nat) × FileState :=
  match from_lock_result (lockFile poisoned fs) with
  | .ok f =>
      let f1 := f.seek off
      let r := f1.read_exact len
      (from_io_result r.1, r.2)
  | .err e => (.err e, fs)
  | .panicked => (.panicked, fs)

end RandomAccessFile

/-- A byte sink (`Box<Write>`): `accepted` is the byte trace the sink has
taken so far, and `behavior` decides — from that trace and the offered
chunk — whether a `Write::write` call fails or accepts `n` bytes
(`Ok(n)`, the raw `io::Error` modelled as `Unit`). -/
structure Sink where
  accepted : List Nat
  behavior : List Nat → List Nat → Except Unit Nat

/-- One `Write::write(chunk)` call on the sink: on `Ok(n)` the sink takes
the first `n` bytes of the chunk; on failure it takes nothing. -/
def Sink.write (s : Sink) (chunk : List Nat) : Sink × Except Unit Nat :=
  match s.behavior s.accepted chunk with
  | .ok n => ({ s with accepted := s.accepted ++ chunk.take n }, .ok n)
  | .error e => (s, .error e)

/-- `Logger`: owns exactly one write-capable sink. -/
structure Logger where
  dst : Sink

/-- `Logger::log(message)`: write the message bytes, then a single
newline byte (10), discarding both write results (`let _ = ...`); the
function returns unit in the source, i.e. only the updated logger here —
there is no error channel in its type. -/
def Logger.log (l : Logger) (message : List Nat) : Logger :=
  let d1 := (l.dst.write message).1
  let d2 := (d1.write [10]).1
  { dst := d2 }

/-- The `Env` capability trait: one field per operation, parameterized by
the associated reader/writer/lock types.  Fallible operations return
`Outcome`; `unlock`, `micros` and `sleep_for` return plain values with
no error channel in their signatures. -/
structure Env (Path SequentialReader RandomReader Writer FileLock : Type) where
  open_sequential_file : Path → Outcome SequentialReader
  open_random_access_file : Path → Outcome RandomReader
  open_writable_file : Path → Outcome Writer
  open_appendable_file : Path → Outcome Writer
  exists_ : Path → Outcome Bool
  children : Path → Outcome (List String)
  size_of : Path → Outcome Nat
  delete : Path → Outcome Unit
  mkdir : Path → Outcome Unit
  rmdir : Path → Outcome Unit
  rename : Path → Path → Outcome Unit
  lock : Path → Outcome FileLock
  unlock : FileLock → Unit
  new_logger : Path → Outcome Logger
  micros : Unit → Nat
  sleep_for : Nat → Unit

/-! ## Interleaved execution of concurrent `read_at` calls

Each thread's `read_at` call decomposes into four micro-steps on the
shared state: acquire the mutex, seek, read, release the mutex.  A
schedule is a list of such events; the mutex semantics rejects any
schedule in which a step runs without the required ownership.  This
models `T` threads calling `read_at` on clones of one
`RandomAccessFile` under an arbitrary interleaving. -/

/-- Progress of one `read_at` call through its four micro-steps. -/
inductive Stage where
  | idle
  | locked
  | seeked
  | readDone
  | done
  deriving DecidableEq, Repr

/-- A scheduling event: micro-step of call `i`. -/
inductive Ev where
  | lockEv (i : Nat)
  | seekEv (i : Nat)
  | readEv (i : Nat)
  | unlockEv (i : Nat)
  deriving DecidableEq, Repr

/-- Global state of an interleaved execution: the mutex owner, the
shared file resource, and each call's progress and recorded result. -/
structure Config where
  holder : Option Nat
  fs : FileState
  stages : List Stage
  results : List (Option (Outcome (List Nat)))
  deriving DecidableEq, Repr

/-- One micro-step of the schedule, given the calls' `(off, len)`
parameters `cs`.  `none` means the event cannot fire: acquiring a held
mutex blocks, and seek/read/release require ownership (a thread performs
them only between its own acquire and release). -/
def step (cs : List (Nat × Nat)) (c : Config) : Ev → Option Config
  | .lockEv i =>
      if c.holder = none ∧ c.stages[i]? = some .idle then
        some { c with holder := some i, stages := c.stages.set i .locked }
      else none
  | .seekEv i =>
      match cs[i]? with
      | some pr =>
          if c.holder = some i ∧ c.stages[i]? = some .locked then
            some { c with fs := c.fs.seek pr.1, stages := c.stages.set i .seeked }
          else none
      | none => none
  | .readEv i =>
      match cs[i]? with
      | some pr =>
          if c.holder = some i ∧ c.stages[i]? = some .seeked then
            some { c with
                fs := (c.fs.read_exact pr.2).2,
                stages := c.stages.set i .readDone,
                results := c.results.set i (some (from_io_result (c.fs.read_exact pr.2).1)) }
          else none
      | none => none
  | .unlockEv i =>
      if c.holder = some i ∧ c.stages[i]? = some .readDone then
        some { c with holder := none, stages := c.stages.set i .done }
      else none

/-- Run a whole schedule from a configuration; `none` when some event
could not fire. -/
def runTrace (cs : List (Nat × Nat)) (c : Config) : List Ev → Option Config
  | [] => some c
  | e :: tr =>
      match step cs c e with
      | some c1 => runTrace cs c1 tr
      | none => none

/-- Initial configuration: mutex free, file content `C0` with position
0, every call not yet started. -/
def initConfig (cs : List (Nat × Nat)) (C0 : List Nat) : Config :=
  { holder := none, fs := ⟨C0, 0⟩,
    stages := List.replicate cs.length .idle,
    results := List.replicate cs.length none }

/-- The result a lone `read_at(off, len)` on content `C0` would record. -/
def expectedRead (C0 : List Nat) (off len : Nat) : Outcome (List Nat) :=
  from_io_result (FileState.read_exact ⟨C0, off⟩ len).1

/-- Execution invariant: the content never changes; the stage and result
tables track the calls; any call holding an intermediate stage owns the
mutex; a call that has seeked (and not yet read) fixed the position to
its own offset; a call that has read recorded exactly the result of a
lone read of its own range. -/
def ExecInv (cs : List (Nat × Nat)) (C0 : List Nat) (c : Config) : Prop :=
  c.fs.content = C0 ∧
  c.stages.length = cs.length ∧
  c.results.length = cs.length ∧
  (∀ i : Nat, (c.stages[i]? = some Stage.locked ∨
      c.stages[i]? = some Stage.seeked ∨
      c.stages[i]? = some Stage.readDone) → c.holder = some i) ∧
  (∀ (i : Nat) (pr : Nat × Nat), cs[i]? = some pr →
      c.stages[i]? = some Stage.seeked → c.fs.pos = pr.1) ∧
  (∀ (i : Nat) (pr : Nat × Nat), cs[i]? = some pr →
      (c.stages[i]? = some Stage.readDone ∨ c.stages[i]? = some Stage.done) →
      c.results[i]? = some (some (expectedRead C0 pr.1 pr.2)))

/-- Two concurrent calls with disjoint ranges, for the concrete
schedule `tr6`. -/
def cs6 : List (Nat × Nat) := [(0, 2), (2, 2)]

/-- A concrete schedule running call 1 completely, then call 0. -/
def tr6 : List Ev :=
  [.lockEv 1, .seekEv 1, .readEv 1, .unlockEv 1,
   .lockEv 0, .seekEv 0, .readEv 0, .unlockEv 0]

/-- The configuration `tr6` ends in from content `[1,2,3,4]`. -/
def cFinal6 : Config :=
  { holder := none, fs := ⟨[1, 2, 3, 4], 2⟩,
    stages := [.done, .done],
    results := [some (.ok [1, 2]), some (.ok [3, 4])] }

/-- A sink that accepts every offered byte (e.g. an in-memory buffer such
as a `Vec<u8>` sink), starting empty. -/
def fullSink : Sink :=
  { accepted := [], behavior := fun _ ch => .ok ch.length }

/-- A sink on which every write fails. -/
def failSink : Sink :=
  { accepted := [0], behavior := fun _ _ => .error () }

/-- Closed form of an unpoisoned `read_at`: the requested slice when
`len` bytes are available from `off`, an I/O error otherwise. -/
theorem read_at_false_eq (fs : FileState) (off len : Nat) :
    (RandomAccessFile.read_at false fs off len).1 =
      if len ≤ fs.content.length - off then
        .ok ((fs.content.drop off).take len)
      else .err .ioError := by
  by_cases hc : len ≤ fs.content.length - off <;>
    simp [RandomAccessFile.read_at, lockFile, from_lock_result, FileState.seek,
      FileState.read_exact, FileState.readBytes, from_io_result, hc]

/-- A poisoned `read_at` is the typed synchronization error. -/
theorem read_at_true_eq (fs : FileState) (off len : Nat) :
    (RandomAccessFile.read_at true fs off len).1 = .err .lockError := by
  simp [RandomAccessFile.read_at, lockFile, from_lock_result]

/-- A write never changes the sink's behavior. -/
theorem Sink.write_behavior (s : Sink) (ch : List Nat) :
    (s.write ch).1.behavior = s.behavior := by
  cases h : s.behavior s.accepted ch with
  | ok n => simp [Sink.write, h]
  | error e => simp [Sink.write, h]

/-- A write only ever extends the sink's accepted trace. -/
theorem Sink.write_accepted (s : Sink) (ch : List Nat) :
    ∃ t, (s.write ch).1.accepted = s.accepted ++ t := by
  cases h : s.behavior s.accepted ch with
  | ok n => exact ⟨ch.take n, by simp [Sink.write, h]⟩
  | error e => exact ⟨[], by simp [Sink.write, h]⟩

/-- Any successful `read_at` returns a buffer of exactly the requested
length: the buffer is resized to `len` and `read_exact` only succeeds
when it fills it completely. -/
theorem read_at_ok_length (p : Bool) (fs : FileState) (off len : Nat)
    (bs : List Nat) (h : (RandomAccessFile.read_at p fs off len).1 = .ok bs) :
    bs.length = len := by
  cases p with
  | true => rw [read_at_true_eq] at h; exact absurd h (by simp)
  | false =>
    rw [read_at_false_eq] at h
    by_cases hc : len ≤ fs.content.length - off
    · rw [if_pos hc] at h
      have : (fs.content.drop off).take len = bs := by
        simpa using h
      subst this
      simp [List.length_take, List.length_drop]
      omega
    · rw [if_neg hc] at h
      exact absurd h (by simp)

/-- C1: for a file with content `C` of length `N` and any
`off + len ≤ N`, `read_at(off, len)` with the lock acquired successfully
returns Ok of exactly `C[off..off+len]`, a vector of length `len`. -/
theorem read_at_in_range (C : List Nat) (pos off len : Nat)
    (h : off + len ≤ C.length) :
    (RandomAccessFile.read_at false ⟨C, pos⟩ off len).1 =
      .ok ((C.drop off).take len) ∧ ((C.drop off).take len).length = len := by
  have hlen : ((C.drop off).take len).length = len := by
    simp [List.length_take, List.length_drop]
    omega
  refine ⟨?_, hlen⟩
  simp [RandomAccessFile.read_at, lockFile, from_lock_result, FileState.seek,
    FileState.read_exact, FileState.readBytes, from_io_result, hlen]

/-- Witness for C1 at content `[3,1,4,1]`, prior position 7, offset 1,
length 2. -/
theorem read_at_in_range_witness :
    (RandomAccessFile.read_at false ⟨[3,1,4,1], 7⟩ 1 2).1 = .ok [1,4] ∧
      ([1,4] : List Nat).length = 2 := by
  have h := read_at_in_range [3,1,4,1] 7 1 2 (by decide)
  simpa using h

/-- C2 counterexample: with empty content (`N = 0`), offset 5 and
length 0 we have `offset + length > N`, yet `read_at` returns Ok of the
empty vector instead of failing. -/
theorem read_at_overrun_counterexample :
    5 + 0 > ([] : List Nat).length ∧
    (RandomAccessFile.read_at false ⟨[], 0⟩ 5 0).1 = .ok [] := by
  decide

/-- C2 amended: for `len ≥ 1`, a request with `off + len > N` fails with
an I/O-kind error; and no successful `read_at` (any inputs) ever returns
a buffer shorter than requested. -/
theorem read_at_overrun (C : List Nat) (pos off len : Nat)
    (hone : 1 ≤ len) (hover : C.length < off + len) :
    (RandomAccessFile.read_at false ⟨C, pos⟩ off len).1 = .err .ioError ∧
    ∀ (p : Bool) (fs : FileState) (off' len' : Nat) (bs : List Nat),
      (RandomAccessFile.read_at p fs off' len').1 = .ok bs → bs.length = len' := by
  refine ⟨?_, read_at_ok_length⟩
  rw [read_at_false_eq]
  have hne : ¬ len ≤ (⟨C, pos⟩ : FileState).content.length - off := by
    simp only [FileState.mk.injEq]
    omega
  rw [if_neg hne]

/-- Witness for C2 (amended) at content `[1,2]`, offset 1, length 2. -/
theorem read_at_overrun_witness :
    (RandomAccessFile.read_at false ⟨[1,2], 0⟩ 1 2).1 = .err .ioError := by
  exact (read_at_overrun [1,2] 0 1 2 (by decide) (by decide)).1

/-- C5: `read_at` fails with the synchronization error kind exactly when
the mutex is poisoned; it never panics, and an unpoisoned call never
produces that kind. -/
theorem read_at_lockError_iff (poisoned : Bool) (fs : FileState) (off len : Nat) :
    (RandomAccessFile.read_at poisoned fs off len).1 = .err .lockError ↔
      poisoned = true := by
  cases poisoned with
  | true => simp [read_at_true_eq]
  | false =>
    rw [read_at_false_eq]
    by_cases hc : len ≤ fs.content.length - off <;> simp [hc]

/-- C7: the result of `read_at(off, len)` does not depend on the prior
cursor position of the underlying resource — the call seeks to the
absolute offset first. -/
theorem read_at_pos_independent (poisoned : Bool) (C : List Nat)
    (p1 p2 off len : Nat) :
    (RandomAccessFile.read_at poisoned ⟨C, p1⟩ off len).1 =
      (RandomAccessFile.read_at poisoned ⟨C, p2⟩ off len).1 := by
  cases poisoned <;>
    simp [RandomAccessFile.read_at, lockFile, from_lock_result, FileState.seek,
      FileState.read_exact, FileState.readBytes, from_io_result]

/-- C9: a zero-length read succeeds with the empty vector at every
offset, including offsets beyond the end of the file (`read_exact` of an
empty buffer is trivially satisfied and the seek beyond EOF succeeds). -/
theorem read_at_zero_len (C : List Nat) (pos off : Nat) :
    (RandomAccessFile.read_at false ⟨C, pos⟩ off 0).1 = .ok [] := by
  simp [RandomAccessFile.read_at, lockFile, from_lock_result, FileState.seek,
    FileState.read_exact, FileState.readBytes, from_io_result]

/-- C3: when every underlying write accepts all offered bytes, `log`
appends exactly the message bytes followed by one newline byte to the
sink's accepted trace, in that order. -/
theorem log_appends_message_newline (s : Sink) (msg : List Nat)
    (hfull : ∀ a ch, s.behavior a ch = .ok ch.length) :
    ((Logger.mk s).log msg).dst.accepted = s.accepted ++ msg ++ [10] ∧
    ((Logger.mk s).log msg).dst.behavior = s.behavior := by
  simp [Logger.log, Sink.write, hfull]

/-- Witness for C3: logging the two bytes `[72, 105]` to an empty
always-accepting sink leaves the trace `[72, 105, 10]`. -/
theorem log_appends_message_newline_witness :
    ((Logger.mk fullSink).log [72, 105]).dst.accepted = [72, 105, 10] := by
  have h := log_appends_message_newline fullSink [72, 105] (fun _ _ => rfl)
  simpa [fullSink] using h.1

/-- C4: `log` never propagates a failure: its result type has no error
channel (it returns only the updated logger), the sink's behavior is
untouched, the accepted trace is only ever extended, and on a sink whose
every write fails the call still returns normally with the sink
unchanged. -/
theorem log_never_propagates (s : Sink) (msg : List Nat) :
    ((Logger.mk s).log msg).dst.behavior = s.behavior ∧
    (∃ t, ((Logger.mk s).log msg).dst.accepted = s.accepted ++ t) ∧
    ((∀ a ch, s.behavior a ch = .error ()) →
      (Logger.mk s).log msg = Logger.mk s) := by
  refine ⟨?_, ?_, ?_⟩
  · simp [Logger.log, Sink.write_behavior]
  · obtain ⟨t1, h1⟩ := Sink.write_accepted s msg
    obtain ⟨t2, h2⟩ := Sink.write_accepted (s.write msg).1 [10]
    exact ⟨t1 ++ t2, by simp [Logger.log, h1, h2, List.append_assoc]⟩
  · intro hfail
    simp [Logger.log, Sink.write, hfail]

/-- Witness for C4: on the always-failing sink, `log` returns normally
and leaves the sink exactly as it was. -/
theorem log_never_propagates_witness :
    (Logger.mk failSink).log [1, 2] = Logger.mk failSink := by
  exact (log_never_propagates failSink [1, 2]).2.2 (fun _ _ => rfl)

/-- C8: no operation of this layer panics on ordinary failures: every
`read_at` outcome is a typed value (a lock-kind error, an I/O-kind
error, or a successful buffer — never the abnormal-termination outcome),
and `log` always returns a well-formed logger. -/
theorem env_layer_no_panic (poisoned : Bool) (fs : FileState) (off len : Nat)
    (s : Sink) (msg : List Nat) :
    (RandomAccessFile.read_at poisoned fs off len).1 ≠ .panicked ∧
    ((RandomAccessFile.read_at poisoned fs off len).1 = .err .lockError ∨
     (RandomAccessFile.read_at poisoned fs off len).1 = .err .ioError ∨
     ∃ bs, (RandomAccessFile.read_at poisoned fs off len).1 = .ok bs) ∧
    ((Logger.mk s).log msg).dst.behavior = s.behavior := by
  refine ⟨?_, ?_, by simp [Logger.log, Sink.write_behavior]⟩ <;>
    cases poisoned with
    | true => simp [read_at_true_eq]
    | false =>
      rw [read_at_false_eq]
      by_cases hc : len ≤ fs.content.length - off <;> simp [hc]

/-- C10: the `Env` operations `unlock`, `micros` and `sleep_for` have no
failure channel: for every implementor and input they return unit (or a
plain number for `micros`), never an error value. -/
theorem env_infallible_ops (Path SR RR W FL : Type)
    (e : Env Path SR RR W FL) (l : FL) (m : Nat) :
    e.unlock l = () ∧ e.sleep_for m = () ∧ ∃ n : Nat, e.micros () = n :=
  ⟨rfl, rfl, ⟨e.micros (), rfl⟩⟩

/-! ### Lemmas for the interleaved execution model -/

/-- An index with a defined optional lookup is in range. -/
theorem getElem?_some_lt {α : Type} {l : List α} {i : Nat} {a : α}
    (h : l[i]? = some a) : i < l.length := by
  by_contra hlt
  rw [List.getElem?_eq_none (Nat.le_of_not_lt hlt)] at h
  exact absurd h (by simp)

/-- Inversion of a fired acquire event. -/
theorem step_lock_inv {cs : List (Nat × Nat)} {c c' : Config} {i : Nat}
    (h : step cs c (.lockEv i) = some c') :
    c.holder = none ∧ c.stages[i]? = some .idle ∧
    c'.holder = some i ∧ c'.fs = c.fs ∧
    c'.stages = c.stages.set i .locked ∧ c'.results = c.results := by
  simp only [step] at h
  split at h
  next hcond =>
    cases Option.some.inj h
    exact ⟨hcond.1, hcond.2, rfl, rfl, rfl, rfl⟩
  next => exact absurd h (by simp)

/-- Inversion of a fired seek event. -/
theorem step_seek_inv {cs : List (Nat × Nat)} {c c' : Config} {i : Nat}
    (h : step cs c (.seekEv i) = some c') :
    ∃ pr, cs[i]? = some pr ∧ c.holder = some i ∧
      c.stages[i]? = some .locked ∧
      c'.holder = c.holder ∧ c'.fs = c.fs.seek pr.1 ∧
      c'.stages = c.stages.set i .seeked ∧ c'.results = c.results := by
  simp only [step] at h
  split at h
  next pr hcs =>
    split at h
    next hcond =>
      cases Option.some.inj h
      exact ⟨pr, hcs, hcond.1, hcond.2, by rw [hcond.1], rfl, rfl, rfl⟩
    next => exact absurd h (by simp)
  next => exact absurd h (by simp)

/-- Inversion of a fired read event. -/
theorem step_read_inv {cs : List (Nat × Nat)} {c c' : Config} {i : Nat}
    (h : step cs c (.readEv i) = some c') :
    ∃ pr, cs[i]? = some pr ∧ c.holder = some i ∧
      c.stages[i]? = some .seeked ∧
      c'.holder = c.holder ∧ c'.fs = (c.fs.read_exact pr.2).2 ∧
      c'.stages = c.stages.set i .readDone ∧
      c'.results = c.results.set i (some (from_io_result (c.fs.read_exact pr.2).1)) := by
  simp only [step] at h
  split at h
  next pr hcs =>
    split at h
    next hcond =>
      cases Option.some.inj h
      exact ⟨pr, hcs, hcond.1, hcond.2, by rw [hcond.1], rfl, rfl, rfl⟩
    next => exact absurd h (by simp)
  next => exact absurd h (by simp)

/-- Inversion of a fired release event. -/
theorem step_unlock_inv {cs : List (Nat × Nat)} {c c' : Config} {i : Nat}
    (h : step cs c (.unlockEv i) = some c') :
    c.holder = some i ∧ c.stages[i]? = some .readDone ∧
    c'.holder = none ∧ c'.fs = c.fs ∧
    c'.stages = c.stages.set i .done ∧ c'.results = c.results := by
  simp only [step] at h
  split at h
  next hcond =>
    cases Option.some.inj h
    exact ⟨hcond.1, hcond.2, rfl, rfl, rfl, rfl⟩
  next => exact absurd h (by simp)

/-- Unfolding of `runTrace` on a cons. -/
theorem runTrace_cons (cs : List (Nat × Nat)) (c : Config) (e : Ev) (tr : List Ev) :
    runTrace cs c (e :: tr) =
      match step cs c e with
      | some c1 => runTrace cs c1 tr
      | none => none := rfl

/-- `runTrace` splits over appended schedules. -/
theorem runTrace_append (cs : List (Nat × Nat)) (l1 : List Ev) :
    ∀ (c : Config) (l2 : List Ev),
      runTrace cs c (l1 ++ l2) =
        match runTrace cs c l1 with
        | some c1 => runTrace cs c1 l2
        | none => none := by
  induction l1 with
  | nil => intro c l2; rfl
  | cons e l1 ih =>
    intro c l2
    rw [List.cons_append, runTrace_cons, runTrace_cons]
    cases hst : step cs c e with
    | none => simp
    | some c1 => simpa using ih c1 l2

/-- In the initial configuration every call is at the idle stage (or out
of range). -/
theorem initConfig_stages (cs : List (Nat × Nat)) (C0 : List Nat) (j : Nat) :
    (initConfig cs C0).stages[j]? = some .idle ∨
    (initConfig cs C0).stages[j]? = none := by
  by_cases hj : j < cs.length
  · left
    simp [initConfig, List.getElem?_replicate, hj]
  · right
    simp [initConfig, List.getElem?_replicate, hj]

/-- The initial configuration satisfies the execution invariant. -/
theorem initConfig_ExecInv (cs : List (Nat × Nat)) (C0 : List Nat) :
    ExecInv cs C0 (initConfig cs C0) := by
  refine ⟨rfl, by simp [initConfig], by simp [initConfig], ?_, ?_, ?_⟩
  · intro j hj
    rcases initConfig_stages cs C0 j with hx | hx <;>
      rw [hx] at hj <;>
      rcases hj with hj | hj | hj <;>
      exact absurd hj (by simp)
  · intro j pr hcs hj
    rcases initConfig_stages cs C0 j with hx | hx <;> rw [hx] at hj <;>
      exact absurd hj (by simp)
  · intro j pr hcs hj
    rcases initConfig_stages cs C0 j with hx | hx <;> rw [hx] at hj <;>
      rcases hj with hj | hj <;> exact absurd hj (by simp)

/-- An in-range lone read yields exactly the requested slice. -/
theorem expectedRead_in_range (C0 : List Nat) (off len : Nat)
    (h : len ≤ C0.length - off) :
    expectedRead C0 off len = .ok ((C0.drop off).take len) := by
  simp [expectedRead, FileState.read_exact, FileState.readBytes, from_io_result, h]

/-- Every fired micro-step preserves the execution invariant. -/
theorem step_preserves_ExecInv {cs : List (Nat × Nat)} {C0 : List Nat}
    {c c' : Config} {e : Ev}
    (hI : ExecInv cs C0 c) (h : step cs c e = some c') : ExecInv cs C0 c' := by
  obtain ⟨hC, hsl, hrl, hhold, hpos, hres⟩ := hI
  cases e with
  | lockEv i =>
    obtain ⟨hn, hid, hh', hf', hs', hr'⟩ := step_lock_inv h
    have hilt : i < c.stages.length := getElem?_some_lt hid
    refine ⟨by rw [hf', hC], by rw [hs']; simpa using hsl,
      by rw [hr']; exact hrl, ?_, ?_, ?_⟩
    · intro j hj
      rw [hs'] at hj
      rw [hh']
      by_cases hij : i = j
      · rw [hij]
      · rw [List.getElem?_set_ne hij] at hj
        have hx := hhold j hj
        rw [hn] at hx
        exact absurd hx (by simp)
    · intro j pr hcs hj
      rw [hs'] at hj
      rw [hf']
      by_cases hij : i = j
      · rw [← hij, List.getElem?_set_eq_of_lt _ hilt] at hj
        exact absurd hj (by simp)
      · rw [List.getElem?_set_ne hij] at hj
        exact hpos j pr hcs hj
    · intro j pr hcs hj
      rw [hs'] at hj
      rw [hr']
      by_cases hij : i = j
      · rw [← hij, List.getElem?_set_eq_of_lt _ hilt] at hj
        rcases hj with hj | hj <;> exact absurd hj (by simp)
      · rw [List.getElem?_set_ne hij] at hj
        exact hres j pr hcs hj
  | seekEv i =>
    obtain ⟨pr, hcs, hh, hlk, hh', hf', hs', hr'⟩ := step_seek_inv h
    have hilt : i < c.stages.length := getElem?_some_lt hlk
    refine ⟨by rw [hf']; simpa [FileState.seek] using hC,
      by rw [hs']; simpa using hsl, by rw [hr']; exact hrl, ?_, ?_, ?_⟩
    · intro j hj
      rw [hs'] at hj
      rw [hh', hh]
      by_cases hij : i = j
      · rw [hij]
      · rw [List.getElem?_set_ne hij] at hj
        have hx := hhold j hj
        rw [hh] at hx
        exact absurd (Option.some.inj hx) hij
    · intro j pr2 hcs2 hj
      rw [hs'] at hj
      rw [hf']
      by_cases hij : i = j
      · rw [← hij] at hcs2
        rw [hcs] at hcs2
        cases Option.some.inj hcs2
        simp [FileState.seek]
      · rw [List.getElem?_set_ne hij] at hj
        have hx := hhold j (Or.inr (Or.inl hj))
        rw [hh] at hx
        exact absurd (Option.some.inj hx) hij
    · intro j pr2 hcs2 hj
      rw [hs'] at hj
      rw [hr']
      by_cases hij : i = j
      · rw [← hij, List.getElem?_set_eq_of_lt _ hilt] at hj
        rcases hj with hj | hj <;> exact absurd hj (by simp)
      · rw [List.getElem?_set_ne hij] at hj
        exact hres j pr2 hcs2 hj
  | readEv i =>
    obtain ⟨pr, hcs, hh, hsk, hh', hf', hs', hr'⟩ := step_read_inv h
    have hilt : i < c.stages.length := getElem?_some_lt hsk
    have hirt : i < c.results.length := by
      rw [hrl, ← hsl]
      exact hilt
    have hfc : c.fs = (⟨C0, pr.1⟩ : FileState) := by
      rw [show c.fs = (⟨c.fs.content, c.fs.pos⟩ : FileState) from rfl, hC,
        hpos i pr hcs hsk]
    refine ⟨?_, by rw [hs']; simpa using hsl, by rw [hr']; simpa using hrl,
      ?_, ?_, ?_⟩
    · rw [hf', hfc]
      simp [FileState.read_exact, FileState.readBytes]
    · intro j hj
      rw [hs'] at hj
      rw [hh', hh]
      by_cases hij : i = j
      · rw [hij]
      · rw [List.getElem?_set_ne hij] at hj
        have hx := hhold j hj
        rw [hh] at hx
        exact absurd (Option.some.inj hx) hij
    · intro j pr2 hcs2 hj
      rw [hs'] at hj
      by_cases hij : i = j
      · rw [← hij, List.getElem?_set_eq_of_lt _ hilt] at hj
        exact absurd hj (by simp)
      · rw [List.getElem?_set_ne hij] at hj
        have hx := hhold j (Or.inr (Or.inl hj))
        rw [hh] at hx
        exact absurd (Option.some.inj hx) hij
    · intro j pr2 hcs2 hj
      rw [hs'] at hj
      rw [hr']
      by_cases hij : i = j
      · rw [← hij] at hcs2 ⊢
        rw [hcs] at hcs2
        cases Option.some.inj hcs2
        rw [List.getElem?_set_eq_of_lt _ hirt, hfc]
        rfl
      · rw [List.getElem?_set_ne hij] at hj
        rw [List.getElem?_set_ne hij]
        exact hres j pr2 hcs2 hj
  | unlockEv i =>
    obtain ⟨hh, hrd, hh', hf', hs', hr'⟩ := step_unlock_inv h
    have hilt : i < c.stages.length := getElem?_some_lt hrd
    refine ⟨by rw [hf', hC], by rw [hs']; simpa using hsl,
      by rw [hr']; exact hrl, ?_, ?_, ?_⟩
    · intro j hj
      rw [hs'] at hj
      by_cases hij : i = j
      · rw [← hij, List.getElem?_set_eq_of_lt _ hilt] at hj
        rcases hj with hj | hj | hj <;> exact absurd hj (by simp)
      · rw [List.getElem?_set_ne hij] at hj
        have hx := hhold j hj
        rw [hh] at hx
        exact absurd (Option.some.inj hx) hij
    · intro j pr2 hcs2 hj
      rw [hs'] at hj
      rw [hf']
      by_cases hij : i = j
      · rw [← hij, List.getElem?_set_eq_of_lt _ hilt] at hj
        exact absurd hj (by simp)
      · rw [List.getElem?_set_ne hij] at hj
        exact hpos j pr2 hcs2 hj
    · intro j pr2 hcs2 hj
      rw [hs'] at hj
      rw [hr']
      by_cases hij : i = j
      · rw [← hij] at hcs2 ⊢
        exact hres i pr2 hcs2 (Or.inl hrd)
      · rw [List.getElem?_set_ne hij] at hj
        exact hres j pr2 hcs2 hj

/-- Running any schedule preserves the execution invariant. -/
theorem runTrace_preserves_ExecInv (cs : List (Nat × Nat)) (C0 : List Nat) :
    ∀ (tr : List Ev) (c c' : Config),
      ExecInv cs C0 c → runTrace cs c tr = some c' → ExecInv cs C0 c' := by
  intro tr
  induction tr with
  | nil =>
    intro c c' hI hr
    cases Option.some.inj hr
    exact hI
  | cons e tr ih =>
    intro c c' hI hr
    rw [runTrace_cons] at hr
    cases hs : step cs c e with
    | none =>
      rw [hs] at hr
      exact absurd hr (by simp)
    | some c1 =>
      rw [hs] at hr
      exact ih c1 c' (step_preserves_ExecInv hI hs) hr

/-- A successful run over an appended schedule passes through an
intermediate configuration. -/
theorem runTrace_append_some {cs : List (Nat × Nat)} {c c' : Config}
    {l1 l2 : List Ev} (h : runTrace cs c (l1 ++ l2) = some c') :
    ∃ c1, runTrace cs c l1 = some c1 ∧ runTrace cs c1 l2 = some c' := by
  rw [runTrace_append] at h
  cases h1 : runTrace cs c l1 with
  | none =>
    rw [h1] at h
    exact absurd h (by simp)
  | some c1 =>
    rw [h1] at h
    exact ⟨c1, rfl, h⟩

/-- A successful run over a cons schedule fires its head event. -/
theorem runTrace_cons_some {cs : List (Nat × Nat)} {c c' : Config} {e : Ev}
    {tr : List Ev} (h : runTrace cs c (e :: tr) = some c') :
    ∃ c1, step cs c e = some c1 ∧ runTrace cs c1 tr = some c' := by
  rw [runTrace_cons] at h
  cases h1 : step cs c e with
  | none =>
    rw [h1] at h
    exact absurd h (by simp)
  | some c1 =>
    rw [h1] at h
    exact ⟨c1, rfl, h⟩

/-- C6: for any number of concurrent `read_at` calls on clones of one
`RandomAccessFile` and any interleaving of their micro-steps that the
mutex admits (any schedule the semantics completes), every call that has
finished its read recorded exactly the bytes of its own requested range,
and the event immediately after any call's seek is that same call's read
— no other call's seek or read ever comes between them. -/
theorem read_at_concurrent_interleavings (cs : List (Nat × Nat)) (C0 : List Nat)
    (tr : List Ev) (c : Config)
    (hrun : runTrace cs (initConfig cs C0) tr = some c) :
    (∀ (i off len : Nat), cs[i]? = some (off, len) → len ≤ C0.length - off →
      (c.stages[i]? = some Stage.readDone ∨ c.stages[i]? = some Stage.done) →
      c.results[i]? = some (some (Outcome.ok ((C0.drop off).take len)))) ∧
    (∀ p i : Nat, tr[p]? = some (Ev.seekEv i) → p + 1 < tr.length →
      tr[p + 1]? = some (Ev.readEv i)) := by
  constructor
  · intro i off len hcs hlen hstage
    have hI := runTrace_preserves_ExecInv cs C0 tr (initConfig cs C0) c
      (initConfig_ExecInv cs C0) hrun
    have hx := hI.2.2.2.2.2 i (off, len) hcs hstage
    rw [hx, expectedRead_in_range C0 off len hlen]
  · intro p i hp hp1
    have hples : p < tr.length := getElem?_some_lt hp
    obtain ⟨e2, he2⟩ : ∃ e2, tr[p + 1]? = some e2 :=
      ⟨_, List.getElem?_eq_getElem hp1⟩
    have hgp : tr[p] = Ev.seekEv i := by
      have h1 := List.getElem?_eq_getElem hples
      rw [hp] at h1
      exact (Option.some.inj h1).symm
    have hgp1 : tr[p + 1] = e2 := by
      have h1 := List.getElem?_eq_getElem hp1
      rw [he2] at h1
      exact (Option.some.inj h1).symm
    have hdrop : tr.drop p = Ev.seekEv i :: e2 :: tr.drop (p + 2) := by
      rw [List.drop_eq_getElem_cons hples, List.drop_eq_getElem_cons hp1, hgp, hgp1]
    have htr : tr = tr.take p ++ (Ev.seekEv i :: e2 :: tr.drop (p + 2)) := by
      rw [← hdrop, List.take_append_drop]
    rw [htr] at hrun
    obtain ⟨c1, h1, hrun1⟩ := runTrace_append_some hrun
    obtain ⟨c2, h2, hrun2⟩ := runTrace_cons_some hrun1
    obtain ⟨c3, h3, _⟩ := runTrace_cons_some hrun2
    obtain ⟨pr, hcs, hh1, hst1, hh2, hf2, hs2, hr2⟩ := step_seek_inv h2
    have hilt : i < c1.stages.length := getElem?_some_lt hst1
    have hhc2 : c2.holder = some i := by rw [hh2, hh1]
    have hsc2 : c2.stages[i]? = some Stage.seeked := by
      rw [hs2]
      exact List.getElem?_set_eq_of_lt _ hilt
    rw [he2]
    cases e2 with
    | lockEv j =>
      obtain ⟨hhn, _, _, _, _, _⟩ := step_lock_inv h3
      rw [hhc2] at hhn
      exact absurd hhn (by simp)
    | seekEv j =>
      obtain ⟨pr2, _, hh3, hst3, _, _, _, _⟩ := step_seek_inv h3
      rw [hhc2] at hh3
      cases Option.some.inj hh3
      rw [hsc2] at hst3
      exact absurd (Option.some.inj hst3) (by simp)
    | readEv j =>
      obtain ⟨pr2, _, hh3, _, _, _, _, _⟩ := step_read_inv h3
      rw [hhc2] at hh3
      cases Option.some.inj hh3
      rfl
    | unlockEv j =>
      obtain ⟨hh3, hst3, _, _, _, _⟩ := step_unlock_inv h3
      rw [hhc2] at hh3
      cases Option.some.inj hh3
      rw [hsc2] at hst3
      exact absurd (Option.some.inj hst3) (by simp)

/-- Witness for C6: two interleaved calls (call 1 scheduled first) on
content `[1,2,3,4]` each record exactly their own range, and the seek at
schedule position 1 is immediately followed by the same call's read. -/
theorem read_at_concurrent_interleavings_witness :
    runTrace cs6 (initConfig cs6 [1, 2, 3, 4]) tr6 = some cFinal6 ∧
    cFinal6.results[0]? = some (some (Outcome.ok [1, 2])) ∧
    cFinal6.results[1]? = some (some (Outcome.ok [3, 4])) ∧
    tr6[2]? = some (Ev.readEv 1) := by
  have hrun : runTrace cs6 (initConfig cs6 [1, 2, 3, 4]) tr6 = some cFinal6 := by
    rfl
  have h := read_at_concurrent_interleavings cs6 [1, 2, 3, 4] tr6 cFinal6 hrun
  refine ⟨hrun, ?_, ?_, ?_⟩
  · have hx := h.1 0 0 2 (by decide) (by decide) (by decide)
    simpa using hx
  · have hx := h.1 1 2 2 (by decide) (by decide) (by decide)
    simpa using hx
  · exact h.2 1 1 (by decide) (by decide)
